import Mathlib

/-!
Verification development for the CloudFormation schema-versioning tracker.

The source consists of two Python scripts:

* `fetch_schemas.py`: one synchronization pass (`main`) that enumerates the
  remote resource types, fetches each schema, writes it to a per-type file,
  maintains a `versions` ledger (`first_seen` / `last_updated` / provider
  metadata per type name), reconciles removals into a `removed_schemas`
  archive, and persists both ledgers as key-sorted JSON.
* `schema_tracker.py`: a `SchemaTracker` class that stores the schemas in a
  git repository and derives version history from commits.

The embedding below translates the ledger logic of `fetch_schemas.main` into
pure functions.  Python dicts become association lists over `String` keys
(first-match lookup, in-place update, append on fresh key — matching dict
semantics including insertion order).  Documents are an abstract type `D`
with decidable equality, standing for parsed JSON values compared
structurally (`existing_schema != schema`).  Timestamps are opaque strings
(`datetime.now().isoformat()`).  Per-entity fetch/parse/store failure (the
`try`/`except` around the body of the enumeration loop) is modelled by
`FetchResult.err`, which skips the entity.
-/

namespace CfnSchemaVersioning

/-- Association-list lookup: Python dict access `d[k]` / `d.get(k)`.
First matching key wins; the operations below keep keys unique. -/
def lookupA {α : Type} : List (String × α) → String → Option α
  | [], _ => none
  | (k1, v) :: t, k => if k1 = k then some v else lookupA t k

/-- Association-list store: Python dict assignment `d[k] = v` — replace the
existing binding in place, or append a fresh binding at the end. -/
def setA {α : Type} : List (String × α) → String → α → List (String × α)
  | [], k, v => [(k, v)]
  | (k1, v1) :: t, k, v => if k1 = k then (k, v) :: t else (k1, v1) :: setA t k v

/-- Membership test in a list of keys: Python `k in s` for the
`current_types` set. -/
def inList (k : String) : List String → Bool
  | [] => false
  | x :: t => if x = k then true else inList k t

/-- One entry of the `versions` ledger (`version_metadata.json`): created at
line 74 of `fetch_schemas.py` with `first_seen`/`last_updated` plus the
optional provider metadata keys, which are present only when the fetched
value was not `None`. -/
structure VersionRecord where
  first_seen : String
  last_updated : String
  time_created : Option String
  deprecation_status : Option String
deriving DecidableEq

/-- One entry of the `removed_schemas.json` archive: the version record
spread together with a `removed_date` (lines 99-102). -/
structure RemovedRecord where
  first_seen : String
  last_updated : String
  time_created : Option String
  deprecation_status : Option String
  removed_date : String
deriving DecidableEq

/-- Outcome of `describe_type` + JSON parse + schema-file write for one
entity: either the parsed schema document plus the two optional metadata
fields (`TimeCreated`, `DeprecatedStatus`, already rendered to strings as in
lines 54-57 and 77), or a failure caught by the `except` clause. -/
inductive FetchResult (D : Type) where
  | ok (schema : D) (time_created : Option String) (deprecation_status : Option String)
  | err
deriving DecidableEq

/-- The mutable state of one pass of `fetch_schemas.main`: the schema files
on disk (keyed by filename), the `versions` ledger (keyed by type name) and
the `removed_schemas` archive (keyed by type name). -/
structure St (D : Type) where
  store : List (String × D)
  versions : List (String × VersionRecord)
  removed : List (String × RemovedRecord)
deriving DecidableEq

/-- Overwrite-if-present: the effect of `if v is not None: d[k] = v`
(lines 84-86) on one optional field. -/
def ovw {α : Type} : Option α → Option α → Option α
  | some v, _ => some v
  | none, old => old

/-- The metadata always-overwrite loop of lines 83-86 applied to one
version record. -/
def applyMeta (r : VersionRecord) (tc ds : Option String) : VersionRecord :=
  { r with time_created := ovw tc r.time_created,
           deprecation_status := ovw ds r.deprecation_status }

/-- Lines 99-102: `{**versions[type_name], 'removed_date': current_time}`. -/
def toRemoved (r : VersionRecord) (t : String) : RemovedRecord :=
  ⟨r.first_seen, r.last_updated, r.time_created, r.deprecation_status, t⟩

/-- Python's `str.replace('::', '--')` specialized to its two fixed two-char
arguments: a single left-to-right non-overlapping scan (line 47). -/
def encodeId : List Char → List Char
  | [] => []
  | [c] => [c]
  | c :: c2 :: cs =>
    if c = ':' ∧ c2 = ':' then '-' :: '-' :: encodeId cs
    else c :: encodeId (c2 :: cs)

/-- Python's `str.replace('--', '::')`, the inverse direction used by
`SchemaTracker.get_schema_versions` (line 118 of `schema_tracker.py`). -/
def decodeId : List Char → List Char
  | [] => []
  | [c] => [c]
  | c :: c2 :: cs =>
    if c = '-' ∧ c2 = '-' then ':' :: ':' :: decodeId cs
    else c :: decodeId (c2 :: cs)

/-- Index of the last `'.'` of a filename, if any — Python's
`name.rfind('.')` used by `PurePath.stem`/`suffix`. -/
def lastDotIdx : List Char → Option Nat
  | [] => none
  | c :: cs =>
    match lastDotIdx cs with
    | some j => some (j + 1)
    | none => if c = '.' then some 0 else none

/-- `pathlib.PurePath.stem`: the filename minus its suffix, where a suffix
starts at the last `'.'` only when that dot is neither leading nor trailing
(CPython: `0 < i < len(name) - 1`). -/
def stemOf (l : List Char) : List Char :=
  match lastDotIdx l with
  | some i => if 0 < i ∧ i + 1 < l.length then l.take i else l
  | none => l

/-- Line 47 of `fetch_schemas.py` / line 78 of `schema_tracker.py`:
`filename = type_name.replace('::', '--') + '.json'`. -/
def fileNameOf (id : String) : String :=
  ⟨encodeId id.data ++ ".json".data⟩

/-- Line 118 of `schema_tracker.py`:
`type_name = schema_file.stem.replace('--', '::')`. -/
def recoverId (f : String) : String :=
  ⟨decodeId (stemOf f.data)⟩

/-- Line 42: `type_name.startswith('AWS::')`. -/
def startsWithAws (s : String) : Bool :=
  "AWS::".data.isPrefixOf s.data

/-- Lines 73-81: create the record with `first_seen = last_updated =
current_time` if the type name is new, else bump `last_updated` exactly when
the schema changed. -/
def bumpVersions (t : String) (vs : List (String × VersionRecord))
    (name : String) (changed : Bool) (tc ds : Option String) :
    List (String × VersionRecord) :=
  match lookupA vs name with
  | none => setA vs name ⟨t, t, tc, ds⟩
  | some r => if changed then setA vs name { r with last_updated := t } else vs

/-- Lines 83-86: the metadata always-overwrite loop, run on every successful
observation regardless of whether the schema changed. -/
def metaOverwrite (tc ds : Option String) (vs : List (String × VersionRecord))
    (name : String) : List (String × VersionRecord) :=
  match lookupA vs name with
  | some r => setA vs name (applyMeta r tc ds)
  | none => vs

/-- Lines 72-86: the full `versions`-ledger update for one successfully
fetched entity. -/
def updateVersions (t : String) (vs : List (String × VersionRecord))
    (name : String) (changed : Bool) (tc ds : Option String) :
    List (String × VersionRecord) :=
  metaOverwrite tc ds (bumpVersions t vs name changed tc ds) name

/-- The body of the enumeration loop (lines 38-94) for one `TypeSummaries`
entry: skip non-`AWS::` names; on a fetch/store failure skip the entity;
otherwise compare the fetched schema against the stored file (missing file
counts as changed, lines 59-66), overwrite the file (lines 69-70), and
update the version record. -/
def processEntry {D : Type} [DecidableEq D] (t : String) (s : St D)
    (e : String × FetchResult D) : St D :=
  if startsWithAws e.1 then
    match e.2 with
    | FetchResult.err => s
    | FetchResult.ok schema tc ds =>
      let fn := fileNameOf e.1
      let changed : Bool :=
        match lookupA s.store fn with
        | some old => decide (old ≠ schema)
        | none => true
      { store := setA s.store fn schema,
        versions := updateVersions t s.versions e.1 changed tc ds,
        removed := s.removed }
  else s

/-- The `current_types` set: every enumerated `AWS::`-prefixed type name is
added (line 45) before the fetch is attempted, so it contains failed
entities as well. -/
def currentTypes {D : Type} (E : List (String × FetchResult D)) : List String :=
  (E.map Prod.fst).filter (fun n => startsWithAws n)

/-- The removal reconciliation (lines 96-104): every type name holding a
version record but absent from `current_types` is copied into the removed
archive stamped with the pass timestamp, then deleted from the ledger. -/
def reconcile {D : Type} (t : String) (ct : List String) (s : St D) : St D :=
  let rems := s.versions.filter (fun p => ! inList p.1 ct)
  { store := s.store,
    versions := s.versions.filter (fun p => inList p.1 ct),
    removed := rems.foldl (fun rm p => setA rm p.1 (toRemoved p.2 t)) s.removed }

/-- One full pass of `fetch_schemas.main` over the enumeration `E` with pass
timestamp `t` (a single `current_time` is taken at line 28 and used for the
whole pass): the fetch-and-store loop followed by removal reconciliation. -/
def runPass {D : Type} [DecidableEq D] (t : String) (s : St D)
    (E : List (String × FetchResult D)) : St D :=
  reconcile t (currentTypes E) (E.foldl (processEntry t) s)

/-- The set of type names the pass actually processed successfully — the
"successfully-observed id set" of the specification (ids whose fetch and
store succeeded). -/
def observedOk {D : Type} (E : List (String × FetchResult D)) : List String :=
  (E.filter (fun e => match e.2 with
    | FetchResult.ok _ _ _ => true
    | FetchResult.err => false)).map Prod.fst

/-- Lexicographic comparison of key strings by code point — the order
`json.dump(..., sort_keys=True)` sorts dict keys in. -/
def charsLt : List Char → List Char → Bool
  | [], [] => false
  | [], _ :: _ => true
  | _ :: _, [] => false
  | c :: cs, d :: ds =>
    if c.toNat < d.toNat then true
    else if d.toNat < c.toNat then false
    else charsLt cs ds

/-- Insertion into a key-sorted association list. -/
def insertSorted (p : String × VersionRecord) :
    List (String × VersionRecord) → List (String × VersionRecord)
  | [] => [p]
  | q :: t => if charsLt p.1.data q.1.data then p :: q :: t else q :: insertSorted p t
/-- Key-sorting of the ledger entries, modelling `sort_keys=True`. -/
def sortByKey (l : List (String × VersionRecord)) : List (String × VersionRecord) :=
  l.foldr insertSorted []

/-- Rendering of one optional metadata field. -/
def renderOpt : Option String → List Char
  | none => []
  | some s => s.data

/-- Rendering of one version record's fields in a fixed order. -/
def renderRecord (r : VersionRecord) : List Char :=
  r.first_seen.data ++ ',' :: r.last_updated.data ++ ',' ::
    renderOpt r.time_created ++ ',' :: renderOpt r.deprecation_status

/-- Deterministic, key-sorted serialization of the `versions` ledger,
standing for `json.dump(versions, f, indent=2, sort_keys=True)` at
lines 107-108: a fixed function of the ledger contents, so equal ledgers
always produce byte-identical files. -/
def serializeVersions (l : List (String × VersionRecord)) : List Char :=
  (sortByKey l).foldr (fun p acc => p.1.data ++ ':' :: renderRecord p.2 ++ ';' :: acc) []

/-- Lines 106-108 persist the ledger with `open(version_file, 'w')` followed
by `json.dump`: the open truncates the previous contents in place, and the
dump then writes the serialization sequentially to the same path.  `fault =
some k` models the final write failing after `k` characters have reached the
file (the process dies or the dump raises); `none` is the fault-free run.
The previous file contents are gone in every case — truncation happened
first. -/
def persistVersions (data : List Char) (fault : Option Nat) : List Char :=
  match fault with
  | none => data
  | some k => data.take k

/-- State of the `SchemaTracker` git repository: the working tree of blobs
under `schemas/`, the tree recorded by the last commit, and the append-only
list of commit messages. -/
structure Repo (D : Type) where
  workTree : List (String × D)
  headTree : List (String × D)
  log : List String
deriving DecidableEq

/-- `SchemaTracker.save_schemas` (lines 71-82 of `schema_tracker.py`): write
each fetched schema to `schemas/<type_name.replace('::','--')>.json` in the
working tree. -/
def save_schemas {D : Type} (schemas : List (String × D))
    (work : List (String × D)) : List (String × D) :=
  schemas.foldl (fun w p => setA w (fileNameOf p.1) p.2) work

/-- The commit message format string of line 98. -/
def schemaUpdateMsg (t : String) : String :=
  "Schema update: " ++ t

/-- Modelled from the spec: the underlying history-log mechanism (git) is an
external collaborator, specified only at its interface — `git add .` stages
the working tree, `git diff --cached --quiet` exits zero exactly when the
staged tree equals the committed tree, and `git commit` appends one log
entry and makes the staged tree the committed tree.
`SchemaTracker.commit_changes` (lines 84-104 of `schema_tracker.py`) stages
everything, and commits a single `Schema update: <timestamp>` entry exactly
when the staged diff is nonempty, returning whether it committed. -/
def commit_changes {D : Type} [DecidableEq D] (t : String) (repo : Repo D) :
    Repo D × Bool :=
  if repo.workTree ≠ repo.headTree then
    ({ workTree := repo.workTree, headTree := repo.workTree,
       log := repo.log ++ [schemaUpdateMsg t] }, true)
  else (repo, false)

/-! ### Association-list lemmas -/

theorem lookupA_setA_self {α : Type} {l : List (String × α)} {k : String} {v : α}
    (h : lookupA l k = some v) : setA l k v = l := by
  induction l with
  | nil => simp [lookupA] at h
  | cons p t ih =>
    obtain ⟨k1, v1⟩ := p
    by_cases hk : k1 = k
    · simp only [lookupA, if_pos hk, Option.some.injEq] at h
      simp [setA, hk, h]
    · simp only [lookupA, if_neg hk] at h
      simp [setA, hk, ih h]

theorem lookupA_setA_same {α : Type} (l : List (String × α)) (k : String) (v : α) :
    lookupA (setA l k v) k = some v := by
  induction l with
  | nil => simp [setA, lookupA]
  | cons p t ih =>
    obtain ⟨k1, v1⟩ := p
    by_cases hk : k1 = k
    · simp [setA, hk, lookupA]
    · simp [setA, hk, lookupA, ih]

theorem lookupA_setA_ne {α : Type} (l : List (String × α)) (k k2 : String) (v : α)
    (h : k2 ≠ k) : lookupA (setA l k v) k2 = lookupA l k2 := by
  have h2 : k ≠ k2 := Ne.symm h
  induction l with
  | nil => simp [setA, lookupA, h2]
  | cons p t ih =>
    obtain ⟨k1, v1⟩ := p
    by_cases hk : k1 = k
    · simp [setA, lookupA, hk, h2]
    · simp only [setA, if_neg hk, lookupA, ih]

theorem lookupA_mem {α : Type} {l : List (String × α)} {k : String} {v : α}
    (h : lookupA l k = some v) : (k, v) ∈ l := by
  induction l with
  | nil => simp [lookupA] at h
  | cons p t ih =>
    obtain ⟨k1, v1⟩ := p
    by_cases hk : k1 = k
    · simp only [lookupA, if_pos hk, Option.some.injEq] at h
      exact List.mem_cons.mpr (Or.inl (by rw [hk, h]))
    · simp only [lookupA, if_neg hk] at h
      exact List.mem_cons_of_mem _ (ih h)

theorem mem_keys_setA {α : Type} (l : List (String × α)) (k k2 : String) (v : α) :
    k2 ∈ (setA l k v).map Prod.fst ↔ k2 ∈ l.map Prod.fst ∨ k2 = k := by
  induction l with
  | nil => simp [setA]
  | cons p t ih =>
    obtain ⟨k1, v1⟩ := p
    by_cases hk : k1 = k
    · simp [setA, hk, List.mem_cons]
      tauto
    · simp only [setA, if_neg hk, List.map_cons, List.mem_cons, ih]
      tauto

theorem keysNodup_setA {α : Type} {l : List (String × α)} {k : String} {v : α}
    (h : (l.map Prod.fst).Nodup) : ((setA l k v).map Prod.fst).Nodup := by
  induction l with
  | nil => simp [setA]
  | cons p t ih =>
    obtain ⟨k1, v1⟩ := p
    simp only [List.map_cons, List.nodup_cons] at h
    obtain ⟨h1, h2⟩ := h
    by_cases hk : k1 = k
    · simp only [setA, if_pos hk, List.map_cons, List.nodup_cons]
      exact ⟨hk ▸ h1, h2⟩
    · simp only [setA, if_neg hk, List.map_cons, List.nodup_cons]
      refine ⟨fun hmem => ?_, ih h2⟩
      rcases (mem_keys_setA t k k1 v).mp hmem with hin | heq
      · exact h1 hin
      · exact hk heq

theorem inList_iff {k : String} {l : List String} : inList k l = true ↔ k ∈ l := by
  induction l with
  | nil => simp [inList]
  | cons x t ih =>
    by_cases hx : x = k
    · simp [inList, hx]
    · have hx2 : k ≠ x := Ne.symm hx
      simp [inList, hx, ih, hx2]

theorem lookupA_filterKeys {α : Type} (q : String → Bool) (l : List (String × α))
    (k : String) :
    lookupA (l.filter (fun p => q p.1)) k = if q k then lookupA l k else none := by
  induction l with
  | nil => simp [lookupA]
  | cons p t ih =>
    obtain ⟨k1, v1⟩ := p
    by_cases hq : q k1
    · by_cases hk : k1 = k
      · subst hk
        simp [List.filter_cons, hq, lookupA]
      · simp [List.filter_cons, hq, lookupA, hk, ih]
    · by_cases hk : k1 = k
      · subst hk
        simp [List.filter_cons, hq, lookupA, ih]
      · simp [List.filter_cons, hq, lookupA, hk, ih]

theorem lookupA_foldl_setA_notin {α β : Type} (g : String × α → β)
    (L : List (String × α)) (rm : List (String × β)) (k : String)
    (h : ∀ p ∈ L, p.1 ≠ k) :
    lookupA (L.foldl (fun m p => setA m p.1 (g p)) rm) k = lookupA rm k := by
  induction L generalizing rm with
  | nil => rfl
  | cons p T ih =>
    simp only [List.foldl_cons]
    rw [ih _ (fun q hq => h q (List.mem_cons_of_mem _ hq)),
      lookupA_setA_ne _ _ _ _ (fun hh => h p (List.mem_cons_self _ _) hh.symm)]

theorem lookupA_foldl_setA_mem {α β : Type} (g : String × α → β)
    {L : List (String × α)} (rm : List (String × β)) {k : String} {v : α}
    (hnd : (L.map Prod.fst).Nodup) (hm : (k, v) ∈ L) :
    lookupA (L.foldl (fun m p => setA m p.1 (g p)) rm) k = some (g (k, v)) := by
  induction L generalizing rm with
  | nil => simp at hm
  | cons p T ih =>
    simp only [List.map_cons, List.nodup_cons] at hnd
    rcases List.mem_cons.mp hm with heq | hmem
    · subst heq
      simp only [List.foldl_cons]
      rw [lookupA_foldl_setA_notin]
      · exact lookupA_setA_same _ _ _
      · intro q hq hqk
        exact hnd.1 (List.mem_map.mpr ⟨q, hq, hqk⟩)
    · simp only [List.foldl_cons]
      exact ih _ hnd.2 hmem

theorem lookupA_foldl_setA_isSome {α β : Type} (g : String × α → β)
    (L : List (String × α)) (rm : List (String × β)) (k : String)
    (h : (lookupA rm k).isSome) :
    (lookupA (L.foldl (fun m p => setA m p.1 (g p)) rm) k).isSome := by
  induction L generalizing rm with
  | nil => exact h
  | cons p T ih =>
    simp only [List.foldl_cons]
    apply ih
    by_cases hk : k = p.1
    · subst hk
      simp [lookupA_setA_same]
    · rwa [lookupA_setA_ne _ _ _ _ hk]

/-! ### Ledger-update lemmas -/

theorem ovw_idem {α : Type} (a b : Option α) : ovw a (ovw a b) = ovw a b := by
  cases a <;> rfl

theorem applyMeta_first_seen (r : VersionRecord) (tc ds : Option String) :
    (applyMeta r tc ds).first_seen = r.first_seen := rfl

theorem applyMeta_last_updated (r : VersionRecord) (tc ds : Option String) :
    (applyMeta r tc ds).last_updated = r.last_updated := rfl

theorem applyMeta_self {r : VersionRecord} {tc ds : Option String}
    (h1 : ovw tc r.time_created = r.time_created)
    (h2 : ovw ds r.deprecation_status = r.deprecation_status) :
    applyMeta r tc ds = r := by
  cases r
  simp only [applyMeta] at h1 h2 ⊢
  rw [h1, h2]

theorem bumpVersions_ne (t : String) (vs : List (String × VersionRecord))
    (name : String) (changed : Bool) (tc ds : Option String) (id : String)
    (h : id ≠ name) :
    lookupA (bumpVersions t vs name changed tc ds) id = lookupA vs id := by
  unfold bumpVersions
  rcases lookupA vs name with _ | r
  · exact lookupA_setA_ne _ _ _ _ h
  · rcases changed with _ | _
    · simp
    · simp [lookupA_setA_ne _ _ _ _ h]

theorem metaOverwrite_ne (tc ds : Option String) (vs : List (String × VersionRecord))
    (name id : String) (h : id ≠ name) :
    lookupA (metaOverwrite tc ds vs name) id = lookupA vs id := by
  unfold metaOverwrite
  rcases lookupA vs name with _ | r
  · rfl
  · exact lookupA_setA_ne _ _ _ _ h

theorem updateVersions_ne (t : String) (vs : List (String × VersionRecord))
    (name : String) (changed : Bool) (tc ds : Option String) (id : String)
    (h : id ≠ name) :
    lookupA (updateVersions t vs name changed tc ds) id = lookupA vs id := by
  unfold updateVersions
  rw [metaOverwrite_ne _ _ _ _ _ h, bumpVersions_ne _ _ _ _ _ _ _ h]

theorem bumpVersions_self (t : String) (vs : List (String × VersionRecord))
    (name : String) (changed : Bool) (tc ds : Option String) :
    lookupA (bumpVersions t vs name changed tc ds) name =
      some (match lookupA vs name with
            | none => ⟨t, t, tc, ds⟩
            | some r => if changed then { r with last_updated := t } else r) := by
  unfold bumpVersions
  rcases hv : lookupA vs name with _ | r
  · simp [lookupA_setA_same]
  · rcases changed with _ | _
    · simp [hv]
    · simp [lookupA_setA_same]

theorem metaOverwrite_self {vs : List (String × VersionRecord)} {name : String}
    {r : VersionRecord} (tc ds : Option String) (h : lookupA vs name = some r) :
    lookupA (metaOverwrite tc ds vs name) name = some (applyMeta r tc ds) := by
  unfold metaOverwrite
  rw [h]
  exact lookupA_setA_same _ _ _

theorem updateVersions_self (t : String) (vs : List (String × VersionRecord))
    (name : String) (changed : Bool) (tc ds : Option String) :
    lookupA (updateVersions t vs name changed tc ds) name =
      some (applyMeta
        (match lookupA vs name with
         | none => ⟨t, t, tc, ds⟩
         | some r => if changed then { r with last_updated := t } else r) tc ds) := by
  unfold updateVersions
  exact metaOverwrite_self tc ds (bumpVersions_self t vs name changed tc ds)

theorem updateVersions_stable {vs : List (String × VersionRecord)} {name : String}
    {r : VersionRecord} {tc ds : Option String} (t : String)
    (h : lookupA vs name = some r)
    (h1 : ovw tc r.time_created = r.time_created)
    (h2 : ovw ds r.deprecation_status = r.deprecation_status) :
    updateVersions t vs name false tc ds = vs := by
  unfold updateVersions bumpVersions
  rw [h]
  simp only [Bool.false_eq_true, if_false]
  unfold metaOverwrite
  rw [h]
  show setA vs name (applyMeta r tc ds) = vs
  rw [applyMeta_self h1 h2]
  exact lookupA_setA_self h

theorem bumpVersions_nodup {vs : List (String × VersionRecord)}
    (t : String) (name : String) (changed : Bool) (tc ds : Option String)
    (h : (vs.map Prod.fst).Nodup) :
    ((bumpVersions t vs name changed tc ds).map Prod.fst).Nodup := by
  unfold bumpVersions
  rcases lookupA vs name with _ | r
  · exact keysNodup_setA h
  · rcases changed with _ | _
    · simpa using h
    · simpa using keysNodup_setA h

theorem metaOverwrite_nodup {vs : List (String × VersionRecord)}
    (tc ds : Option String) (name : String)
    (h : (vs.map Prod.fst).Nodup) :
    ((metaOverwrite tc ds vs name).map Prod.fst).Nodup := by
  unfold metaOverwrite
  rcases lookupA vs name with _ | r
  · exact h
  · exact keysNodup_setA h

theorem updateVersions_nodup {vs : List (String × VersionRecord)}
    (t : String) (name : String) (changed : Bool) (tc ds : Option String)
    (h : (vs.map Prod.fst).Nodup) :
    ((updateVersions t vs name changed tc ds).map Prod.fst).Nodup :=
  metaOverwrite_nodup _ _ _ (bumpVersions_nodup _ _ _ _ _ h)

/-! ### Per-entry lemmas -/

theorem processEntry_removed {D : Type} [DecidableEq D] (t : String) (s : St D)
    (e : String × FetchResult D) : (processEntry t s e).removed = s.removed := by
  obtain ⟨name, res⟩ := e
  cases res with
  | ok d tc ds => unfold processEntry; split <;> rfl
  | err => unfold processEntry; split <;> rfl

theorem processEntry_err {D : Type} [DecidableEq D] (t : String) (s : St D)
    (name : String) : processEntry t s (name, FetchResult.err) = s := by
  unfold processEntry
  split <;> rfl

theorem processEntry_notAws {D : Type} [DecidableEq D] (t : String) (s : St D)
    (name : String) (res : FetchResult D) (h : startsWithAws name = false) :
    processEntry t s (name, res) = s := by
  unfold processEntry
  simp [h]

theorem processEntry_ok {D : Type} [DecidableEq D] (t : String) (s : St D)
    (name : String) (d : D) (tc ds : Option String)
    (h : startsWithAws name = true) :
    processEntry t s (name, FetchResult.ok d tc ds) =
      { store := setA s.store (fileNameOf name) d,
        versions := updateVersions t s.versions name
          (match lookupA s.store (fileNameOf name) with
           | some old => decide (old ≠ d)
           | none => true) tc ds,
        removed := s.removed } := by
  unfold processEntry
  simp [h]

theorem processEntry_store_ne {D : Type} [DecidableEq D] (t : String) (s : St D)
    (e : String × FetchResult D) (fn : String) (h : fileNameOf e.1 ≠ fn) :
    lookupA (processEntry t s e).store fn = lookupA s.store fn := by
  obtain ⟨name, res⟩ := e
  cases res with
  | err => rw [processEntry_err]
  | ok d tc ds =>
    by_cases ha : startsWithAws name = true
    · rw [processEntry_ok _ _ _ _ _ _ ha]
      exact lookupA_setA_ne _ _ _ _ (Ne.symm h)
    · rw [processEntry_notAws _ _ _ _ (Bool.eq_false_iff.mpr ha)]

theorem processEntry_versions_ne {D : Type} [DecidableEq D] (t : String) (s : St D)
    (e : String × FetchResult D) (id : String) (h : e.1 ≠ id) :
    lookupA (processEntry t s e).versions id = lookupA s.versions id := by
  obtain ⟨name, res⟩ := e
  cases res with
  | err => rw [processEntry_err]
  | ok d tc ds =>
    by_cases ha : startsWithAws name = true
    · rw [processEntry_ok _ _ _ _ _ _ ha]
      exact updateVersions_ne _ _ _ _ _ _ _ (Ne.symm h)
    · rw [processEntry_notAws _ _ _ _ (Bool.eq_false_iff.mpr ha)]

theorem processEntry_versions_keepSome {D : Type} [DecidableEq D] (t : String)
    (s : St D) (e : String × FetchResult D) (id : String)
    (h : (lookupA s.versions id).isSome) :
    (lookupA (processEntry t s e).versions id).isSome := by
  obtain ⟨name, res⟩ := e
  by_cases hn : name = id
  · subst hn
    cases res with
    | err => rwa [processEntry_err]
    | ok d tc ds =>
      by_cases ha : startsWithAws name = true
      · rw [processEntry_ok _ _ _ _ _ _ ha]
        simp only [St.versions]
        rw [updateVersions_self]
        rfl
      · rwa [processEntry_notAws _ _ _ _ (Bool.eq_false_iff.mpr ha)]
  · rwa [processEntry_versions_ne _ _ _ _ (fun hh => hn hh)]

theorem processEntry_nodup {D : Type} [DecidableEq D] (t : String) (s : St D)
    (e : String × FetchResult D) (h : (s.versions.map Prod.fst).Nodup) :
    ((processEntry t s e).versions.map Prod.fst).Nodup := by
  obtain ⟨name, res⟩ := e
  cases res with
  | err => rwa [processEntry_err]
  | ok d tc ds =>
    by_cases ha : startsWithAws name = true
    · rw [processEntry_ok _ _ _ _ _ _ ha]
      exact updateVersions_nodup _ _ _ _ _ h
    · rwa [processEntry_notAws _ _ _ _ (Bool.eq_false_iff.mpr ha)]

/-! ### Pass-loop lemmas -/

theorem foldl_removed {D : Type} [DecidableEq D] (t : String)
    (E : List (String × FetchResult D)) (s : St D) :
    (E.foldl (processEntry t) s).removed = s.removed := by
  induction E generalizing s with
  | nil => rfl
  | cons e E ih =>
    simp only [List.foldl_cons]
    rw [ih, processEntry_removed]

theorem foldl_versions_ne {D : Type} [DecidableEq D] (t : String)
    {E : List (String × FetchResult D)} (s : St D) {id : String}
    (h : ∀ p ∈ E, p.1 ≠ id) :
    lookupA (E.foldl (processEntry t) s).versions id = lookupA s.versions id := by
  induction E generalizing s with
  | nil => rfl
  | cons e E ih =>
    simp only [List.foldl_cons]
    rw [ih _ (fun p hp => h p (List.mem_cons_of_mem _ hp)),
      processEntry_versions_ne _ _ _ _ (h e (List.mem_cons_self _ _))]

theorem foldl_store_ne {D : Type} [DecidableEq D] (t : String)
    {E : List (String × FetchResult D)} (s : St D) {fn : String}
    (h : ∀ p ∈ E, fileNameOf p.1 ≠ fn) :
    lookupA (E.foldl (processEntry t) s).store fn = lookupA s.store fn := by
  induction E generalizing s with
  | nil => rfl
  | cons e E ih =>
    simp only [List.foldl_cons]
    rw [ih _ (fun p hp => h p (List.mem_cons_of_mem _ hp)),
      processEntry_store_ne _ _ _ _ (h e (List.mem_cons_self _ _))]

theorem foldl_versions_keepSome {D : Type} [DecidableEq D] (t : String)
    (E : List (String × FetchResult D)) (s : St D) (id : String)
    (h : (lookupA s.versions id).isSome) :
    (lookupA (E.foldl (processEntry t) s).versions id).isSome := by
  induction E generalizing s with
  | nil => exact h
  | cons e E ih =>
    simp only [List.foldl_cons]
    exact ih _ (processEntry_versions_keepSome _ _ _ _ h)

theorem foldl_nodup {D : Type} [DecidableEq D] (t : String)
    (E : List (String × FetchResult D)) (s : St D)
    (h : (s.versions.map Prod.fst).Nodup) :
    ((E.foldl (processEntry t) s).versions.map Prod.fst).Nodup := by
  induction E generalizing s with
  | nil => exact h
  | cons e E ih =>
    simp only [List.foldl_cons]
    exact ih _ (processEntry_nodup _ _ _ h)

theorem mem_currentTypes {D : Type} {E : List (String × FetchResult D)} {id : String} :
    id ∈ currentTypes E ↔ ((∃ res, (id, res) ∈ E) ∧ startsWithAws id = true) := by
  unfold currentTypes
  rw [List.mem_filter, List.mem_map]
  constructor
  · rintro ⟨⟨p, hp, rfl⟩, ha⟩
    exact ⟨⟨p.2, hp⟩, ha⟩
  · rintro ⟨⟨res, hres⟩, ha⟩
    exact ⟨⟨(id, res), hres, rfl⟩, ha⟩

theorem inList_ct_of_entry {D : Type} {E : List (String × FetchResult D)}
    {id : String} {res : FetchResult D} (hm : (id, res) ∈ E)
    (ha : startsWithAws id = true) :
    inList id (currentTypes E) = true :=
  inList_iff.mpr (mem_currentTypes.mpr ⟨⟨res, hm⟩, ha⟩)

theorem foldl_notin_ct {D : Type} [DecidableEq D] (t : String)
    {E : List (String × FetchResult D)} (s : St D) {id : String}
    (h : id ∉ currentTypes E) :
    lookupA (E.foldl (processEntry t) s).versions id = lookupA s.versions id := by
  induction E generalizing s with
  | nil => rfl
  | cons e E ih =>
    have htail : id ∉ currentTypes E := by
      intro hmem
      rcases mem_currentTypes.mp hmem with ⟨⟨res, hres⟩, ha⟩
      exact h (mem_currentTypes.mpr ⟨⟨res, List.mem_cons_of_mem _ hres⟩, ha⟩)
    simp only [List.foldl_cons]
    rw [ih _ htail]
    by_cases hn : e.1 = id
    · have ha : startsWithAws e.1 = false := by
        cases hb : startsWithAws e.1 with
        | false => rfl
        | true =>
          apply absurd _ h
          apply mem_currentTypes.mpr
          refine ⟨⟨e.2, ?_⟩, ?_⟩
          · rw [← hn]
            exact List.mem_cons_self _ _
          · rw [← hn]
            exact hb
      obtain ⟨n0, r0⟩ := e
      rw [processEntry_notAws _ _ _ _ ha]
    · rw [processEntry_versions_ne _ _ _ _ hn]

/-! ### Reconciliation lemmas -/

theorem reconcile_store {D : Type} (t : String) (ct : List String) (s : St D) :
    (reconcile t ct s).store = s.store := rfl

theorem reconcile_versions {D : Type} (t : String) (ct : List String) (s : St D)
    (id : String) :
    lookupA (reconcile t ct s).versions id =
      if inList id ct = true then lookupA s.versions id else none :=
  lookupA_filterKeys (fun k => inList k ct) s.versions id

theorem reconcile_keys_in_ct {D : Type} (t : String) (ct : List String) (s : St D) :
    ∀ p ∈ (reconcile t ct s).versions, inList p.1 ct = true := by
  intro p hp
  have hp2 : p ∈ s.versions.filter (fun q => inList q.1 ct) := hp
  exact (List.mem_filter.mp hp2).2

theorem reconcile_removed_in_ct {D : Type} (t : String) (ct : List String)
    (s : St D) (id : String) (h : inList id ct = true) :
    lookupA (reconcile t ct s).removed id = lookupA s.removed id := by
  refine lookupA_foldl_setA_notin (fun p => toRemoved p.2 t) _ _ _ ?_
  intro p hp hpk
  have hmem := List.of_mem_filter hp
  rw [hpk] at hmem
  simp [h] at hmem

theorem reconcile_removed_moved {D : Type} (t : String) (ct : List String)
    {s : St D} {id : String} {r : VersionRecord}
    (hnd : (s.versions.map Prod.fst).Nodup)
    (hv : lookupA s.versions id = some r) (h : inList id ct = false) :
    lookupA (reconcile t ct s).removed id = some (toRemoved r t) := by
  have hmem : (id, r) ∈ s.versions.filter (fun p => ! inList p.1 ct) :=
    List.mem_filter.mpr ⟨lookupA_mem hv, by simp [h]⟩
  have hnd2 : ((s.versions.filter (fun p => ! inList p.1 ct)).map Prod.fst).Nodup :=
    List.Nodup.sublist ((List.filter_sublist _).map Prod.fst) hnd
  exact lookupA_foldl_setA_mem (fun p => toRemoved p.2 t) s.removed hnd2 hmem

theorem reconcile_removed_isSome {D : Type} (t : String) (ct : List String)
    (s : St D) (id : String) (h : (lookupA s.removed id).isSome) :
    (lookupA (reconcile t ct s).removed id).isSome :=
  lookupA_foldl_setA_isSome (fun p => toRemoved p.2 t) _ _ _ h

theorem reconcile_stable {D : Type} (t : String) (ct : List String) (s : St D)
    (h : ∀ p ∈ s.versions, inList p.1 ct = true) :
    reconcile t ct s = s := by
  have h1 : s.versions.filter (fun p => inList p.1 ct) = s.versions :=
    List.filter_eq_self.mpr h
  have h2 : s.versions.filter (fun p => ! inList p.1 ct) = [] :=
    List.filter_eq_nil_iff.mpr (fun p hp => by simp [h p hp])
  simp only [reconcile, h1, h2, List.foldl_nil]

theorem processEntry_exist_lookup {D : Type} [DecidableEq D] (t : String) (s : St D)
    {id : String} (d : D) (tc ds : Option String) {r : VersionRecord}
    (ha : startsWithAws id = true) (hv : lookupA s.versions id = some r) :
    lookupA (processEntry t s (id, FetchResult.ok d tc ds)).versions id =
      some (applyMeta
        (if (match lookupA s.store (fileNameOf id) with
             | some old => decide (old ≠ d)
             | none => true) then { r with last_updated := t } else r) tc ds) := by
  rw [processEntry_ok _ _ _ _ _ _ ha]
  dsimp only
  rw [updateVersions_self, hv]

theorem processEntry_ok_lookup {D : Type} [DecidableEq D] (t : String) (s : St D)
    {id : String} (d : D) (tc ds : Option String) {dOld : D} {r : VersionRecord}
    (ha : startsWithAws id = true) (hv : lookupA s.versions id = some r)
    (hs : lookupA s.store (fileNameOf id) = some dOld) :
    lookupA (processEntry t s (id, FetchResult.ok d tc ds)).versions id =
      some (applyMeta (if dOld = d then r else { r with last_updated := t }) tc ds) := by
  rw [processEntry_exist_lookup t s d tc ds ha hv, hs]
  by_cases hd : dOld = d
  · simp [hd]
  · simp [hd]

/-! ### Claim C1 -/

/-- Claim C1: for an EntityId that already has a VersionRecord and a
previously stored schema document when a pass observes it, the observation
sets `last_updated` to the pass timestamp exactly when the canonicalized
fetched document differs from the stored one, and leaves `last_updated`
unchanged when the two are equal (`first_seen` is untouched either way). -/
theorem change_detection_law {D : Type} [DecidableEq D] (t : String) (s : St D)
    (id : String) (dOld dNew : D) (tc ds : Option String) (r : VersionRecord)
    (ha : startsWithAws id = true)
    (hv : lookupA s.versions id = some r)
    (hs : lookupA s.store (fileNameOf id) = some dOld) :
    ∃ r2, lookupA (processEntry t s (id, FetchResult.ok dNew tc ds)).versions id = some r2 ∧
      r2.last_updated = (if dOld = dNew then r.last_updated else t) ∧
      r2.first_seen = r.first_seen := by
  refine ⟨_, processEntry_ok_lookup t s dNew tc ds ha hv hs, ?_, ?_⟩
  · by_cases hd : dOld = dNew <;> simp [hd, applyMeta_last_updated]
  · by_cases hd : dOld = dNew <;> simp [hd, applyMeta_first_seen]

/-- Witness for C1: a concrete state holding `AWS::X` with schema `1`;
fetching schema `2` (changed) bumps `last_updated` to the pass timestamp
while keeping `first_seen`. -/
theorem change_detection_law_witness :
    (startsWithAws "AWS::X" = true ∧
     lookupA (⟨[("AWS--X.json", 1)], [("AWS::X", ⟨"t0", "t0", none, none⟩)], []⟩ :
       St Nat).versions "AWS::X" = some ⟨"t0", "t0", none, none⟩ ∧
     lookupA (⟨[("AWS--X.json", 1)], [("AWS::X", ⟨"t0", "t0", none, none⟩)], []⟩ :
       St Nat).store (fileNameOf "AWS::X") = some 1) ∧
    (∃ r2, lookupA (processEntry "t1"
        (⟨[("AWS--X.json", 1)], [("AWS::X", ⟨"t0", "t0", none, none⟩)], []⟩ : St Nat)
        ("AWS::X", FetchResult.ok 2 none none)).versions "AWS::X" = some r2 ∧
      r2.last_updated = (if (1 : Nat) = 2 then ("t0" : String) else "t1") ∧
      r2.first_seen = ("t0" : String)) :=
  ⟨⟨by decide, by decide, by decide⟩,
   change_detection_law "t1" _ "AWS::X" 1 2 none none ⟨"t0", "t0", none, none⟩
     (by decide) (by decide) (by decide)⟩

/-! ### Claim C10 -/

/-- Claim C10: on every successful observation of an entity that already has
a VersionRecord, each provider metadata field (`time_created`,
`deprecation_status`) whose fetched value is non-`None` overwrites the
stored field — even when the schema content is unchanged — while a `None`
fetched value leaves the stored field untouched; `first_seen` is never
touched, and when the stored document equals the fetched one `last_updated`
is untouched as well. -/
theorem metadata_overwrite_policy {D : Type} [DecidableEq D] (t : String) (s : St D)
    (id : String) (d : D) (tc ds : Option String) (r : VersionRecord)
    (ha : startsWithAws id = true)
    (hv : lookupA s.versions id = some r) :
    ∃ r2, lookupA (processEntry t s (id, FetchResult.ok d tc ds)).versions id = some r2 ∧
      r2.time_created = ovw tc r.time_created ∧
      r2.deprecation_status = ovw ds r.deprecation_status ∧
      r2.first_seen = r.first_seen ∧
      (lookupA s.store (fileNameOf id) = some d → r2.last_updated = r.last_updated) := by
  refine ⟨_, processEntry_exist_lookup t s d tc ds ha hv, ?_, ?_, ?_, ?_⟩
  · cases hb : (match lookupA s.store (fileNameOf id) with
      | some old => decide (old ≠ d)
      | none => true) <;> simp [hb, applyMeta]
  · cases hb : (match lookupA s.store (fileNameOf id) with
      | some old => decide (old ≠ d)
      | none => true) <;> simp [hb, applyMeta]
  · cases hb : (match lookupA s.store (fileNameOf id) with
      | some old => decide (old ≠ d)
      | none => true) <;> simp [hb, applyMeta]
  · intro hsame
    rw [hsame]
    simp [applyMeta]

/-- Witness for C10: observing `AWS::X` with unchanged schema `1` and a
non-`None` `time_created` overwrites that field while `first_seen` and
`last_updated` stay untouched. -/
theorem metadata_overwrite_policy_witness :
    (startsWithAws "AWS::X" = true ∧
     lookupA (⟨[("AWS--X.json", 1)], [("AWS::X", ⟨"t0", "t0", none, some "dep"⟩)], []⟩ :
       St Nat).versions "AWS::X" = some ⟨"t0", "t0", none, some "dep"⟩) ∧
    (∃ r2, lookupA (processEntry "t1"
        (⟨[("AWS--X.json", 1)], [("AWS::X", ⟨"t0", "t0", none, some "dep"⟩)], []⟩ : St Nat)
        ("AWS::X", FetchResult.ok 1 (some "2024") none)).versions "AWS::X" = some r2 ∧
      r2.time_created = ovw (some "2024") none ∧
      r2.deprecation_status = ovw none (some "dep") ∧
      r2.first_seen = ("t0" : String) ∧
      (lookupA (⟨[("AWS--X.json", 1)], [("AWS::X", ⟨"t0", "t0", none, some "dep"⟩)], []⟩ :
          St Nat).store (fileNameOf "AWS::X") = some 1 →
        r2.last_updated = ("t0" : String))) :=
  ⟨⟨by decide, by decide⟩,
   metadata_overwrite_policy "t1" _ "AWS::X" 1 (some "2024") none
     ⟨"t0", "t0", none, some "dep"⟩ (by decide) (by decide)⟩

theorem processEntry_ok_lookup_any {D : Type} [DecidableEq D] (t : String) (s : St D)
    {id : String} (d : D) (tc ds : Option String) (ha : startsWithAws id = true) :
    lookupA (processEntry t s (id, FetchResult.ok d tc ds)).versions id =
      some (applyMeta
        (match lookupA s.versions id with
         | none => ⟨t, t, tc, ds⟩
         | some r => if (match lookupA s.store (fileNameOf id) with
                         | some old => decide (old ≠ d)
                         | none => true)
                     then { r with last_updated := t } else r) tc ds) := by
  rw [processEntry_ok _ _ _ _ _ _ ha]
  dsimp only
  rw [updateVersions_self]

theorem processEntry_ok_isSome {D : Type} [DecidableEq D] (t : String) (s : St D)
    {id : String} (d : D) (tc ds : Option String) (ha : startsWithAws id = true) :
    (lookupA (processEntry t s (id, FetchResult.ok d tc ds)).versions id).isSome := by
  rw [processEntry_ok_lookup_any t s d tc ds ha]
  rfl

theorem processEntry_fresh {D : Type} [DecidableEq D] (t : String) (s : St D)
    (e : String × FetchResult D) (id : String)
    (hF : ∀ r, lookupA s.versions id = some r →
      r.first_seen = t ∧ r.last_updated = t) :
    ∀ r, lookupA (processEntry t s e).versions id = some r →
      r.first_seen = t ∧ r.last_updated = t := by
  obtain ⟨name, res⟩ := e
  by_cases hn : name = id
  · subst hn
    cases res with
    | err => rw [processEntry_err]; exact hF
    | ok d tc ds =>
      by_cases ha : startsWithAws name = true
      · rw [processEntry_ok_lookup_any t s d tc ds ha]
        rcases hvv : lookupA s.versions name with _ | r0
        · intro r2 hr2
          injection hr2 with hr2
          rw [← hr2]
          simp [applyMeta]
        · obtain ⟨hfs, hlu⟩ := hF r0 hvv
          cases hb : (match lookupA s.store (fileNameOf name) with
            | some old => decide (old ≠ d)
            | none => true) with
          | false =>
            intro r2 hr2
            injection hr2 with hr2
            rw [← hr2]
            simp [applyMeta, hfs, hlu]
          | true =>
            intro r2 hr2
            injection hr2 with hr2
            rw [← hr2]
            simp [applyMeta, hfs]
      · rw [processEntry_notAws _ _ _ _ (Bool.eq_false_iff.mpr ha)]
        exact hF
  · rw [processEntry_versions_ne _ _ _ _ hn]
    exact hF

theorem foldl_fresh {D : Type} [DecidableEq D] (t : String)
    (E : List (String × FetchResult D)) (s : St D) (id : String)
    (hF : ∀ r, lookupA s.versions id = some r →
      r.first_seen = t ∧ r.last_updated = t) :
    ∀ r, lookupA (E.foldl (processEntry t) s).versions id = some r →
      r.first_seen = t ∧ r.last_updated = t := by
  induction E generalizing s with
  | nil => exact hF
  | cons e E ih =>
    simp only [List.foldl_cons]
    exact ih _ (processEntry_fresh t s e id hF)

theorem loop_newIdFresh {D : Type} [DecidableEq D] (t : String)
    (E : List (String × FetchResult D)) :
    ∀ (s : St D) {id : String} {d : D} {tc ds : Option String},
      (id, FetchResult.ok d tc ds) ∈ E → startsWithAws id = true →
      (∀ r, lookupA s.versions id = some r →
        r.first_seen = t ∧ r.last_updated = t) →
      ∃ r, lookupA (E.foldl (processEntry t) s).versions id = some r ∧
        r.first_seen = t ∧ r.last_updated = t := by
  induction E with
  | nil =>
    intro s id d tc ds hmem
    cases hmem
  | cons e E ih =>
    intro s id d tc ds hmem ha hF
    simp only [List.foldl_cons]
    rcases List.mem_cons.mp hmem with heq | hmem2
    · have h1 : (lookupA (processEntry t s e).versions id).isSome := by
        rw [← heq]
        exact processEntry_ok_isSome t s d tc ds ha
      have h2 := processEntry_fresh t s e id hF
      obtain ⟨r, hr⟩ := Option.isSome_iff_exists.mp
        (foldl_versions_keepSome t E _ id h1)
      exact ⟨r, hr, foldl_fresh t E _ id h2 r hr⟩
    · exact ih _ hmem2 ha (processEntry_fresh t s e id hF)

/-- A type name that was absent from the ledger and is successfully observed
during the pass ends the pass with a record whose `first_seen` and
`last_updated` both equal the pass timestamp. -/
theorem newIdFresh {D : Type} [DecidableEq D] (t : String) {s : St D}
    {E : List (String × FetchResult D)} {id : String} {d : D} {tc ds : Option String}
    (h0 : lookupA s.versions id = none)
    (hmem : (id, FetchResult.ok d tc ds) ∈ E)
    (ha : startsWithAws id = true) :
    ∃ r, lookupA (runPass t s E).versions id = some r ∧
      r.first_seen = t ∧ r.last_updated = t := by
  have hF : ∀ r, lookupA s.versions id = some r →
      r.first_seen = t ∧ r.last_updated = t := by
    intro r hr
    rw [h0] at hr
    cases hr
  obtain ⟨r, hr, hfs, hlu⟩ := loop_newIdFresh t E s hmem ha hF
  refine ⟨r, ?_, hfs, hlu⟩
  unfold runPass
  rw [reconcile_versions, if_pos (inList_ct_of_entry hmem ha)]
  exact hr

/-! ### Claim C2 -/

/-- Claim C2: an EntityId with no VersionRecord before the pass that is
successfully fetched and stored during the pass ends the pass with a
VersionRecord whose `first_seen` and `last_updated` both equal the pass
timestamp. -/
theorem new_entity_law {D : Type} [DecidableEq D] (t : String) (s : St D)
    (E : List (String × FetchResult D)) (id : String) (d : D) (tc ds : Option String)
    (h0 : lookupA s.versions id = none)
    (hmem : (id, FetchResult.ok d tc ds) ∈ E)
    (ha : startsWithAws id = true) :
    ∃ r, lookupA (runPass t s E).versions id = some r ∧
      r.first_seen = t ∧ r.last_updated = t :=
  newIdFresh t h0 hmem ha

/-- Witness for C2: a fresh `AWS::New` fetched successfully in an otherwise
empty pass gets `first_seen = last_updated = "t1"`. -/
theorem new_entity_law_witness :
    (lookupA (⟨[], [], []⟩ : St Nat).versions "AWS::New" = none ∧
     ("AWS::New", FetchResult.ok 7 none none) ∈
       ([("AWS::New", FetchResult.ok 7 none none)] : List (String × FetchResult Nat)) ∧
     startsWithAws "AWS::New" = true) ∧
    (∃ r, lookupA (runPass "t1" (⟨[], [], []⟩ : St Nat)
        [("AWS::New", FetchResult.ok 7 none none)]).versions "AWS::New" = some r ∧
      r.first_seen = "t1" ∧ r.last_updated = "t1") :=
  ⟨⟨by decide, by decide, by decide⟩,
   new_entity_law "t1" _ _ "AWS::New" 7 none none (by decide) (by decide) (by decide)⟩

/-! ### Claim C4 -/

/-- Claim C4: an entity whose per-entity fetch or store fails during a pass
is skipped (processing it changes nothing) while the pass continues, and the
pass's removal reconciliation never moves it to the removed archive: after
the pass it still has a VersionRecord and its entry in the removed archive
is exactly what it was before. -/
theorem transient_failure_skip {D : Type} [DecidableEq D] (t : String) (s : St D)
    (E : List (String × FetchResult D)) (id : String) (r : VersionRecord)
    (hmem : (id, FetchResult.err) ∈ E)
    (ha : startsWithAws id = true)
    (hv : lookupA s.versions id = some r) :
    (∀ s2 : St D, processEntry t s2 (id, FetchResult.err) = s2) ∧
    (∃ r2, lookupA (runPass t s E).versions id = some r2) ∧
    lookupA (runPass t s E).removed id = lookupA s.removed id := by
  refine ⟨fun s2 => processEntry_err t s2 id, ?_, ?_⟩
  · have h1 : (lookupA s.versions id).isSome := by rw [hv]; rfl
    obtain ⟨r2, hr2⟩ := Option.isSome_iff_exists.mp
      (foldl_versions_keepSome t E s id h1)
    refine ⟨r2, ?_⟩
    unfold runPass
    rw [reconcile_versions, if_pos (inList_ct_of_entry hmem ha)]
    exact hr2
  · unfold runPass
    rw [reconcile_removed_in_ct _ _ _ _ (inList_ct_of_entry hmem ha), foldl_removed]

/-- Witness for C4: `AWS::X` has a record, its fetch fails; after the pass
the record is still active and the removed archive is untouched. -/
theorem transient_failure_skip_witness :
    (("AWS::X", FetchResult.err) ∈
       ([("AWS::X", FetchResult.err)] : List (String × FetchResult Nat)) ∧
     startsWithAws "AWS::X" = true ∧
     lookupA (⟨[], [("AWS::X", ⟨"t0", "t0", none, none⟩)], []⟩ :
       St Nat).versions "AWS::X" = some ⟨"t0", "t0", none, none⟩) ∧
    ((∀ s2 : St Nat, processEntry "t1" s2 ("AWS::X", FetchResult.err) = s2) ∧
     (∃ r2, lookupA (runPass "t1"
        (⟨[], [("AWS::X", ⟨"t0", "t0", none, none⟩)], []⟩ : St Nat)
        [("AWS::X", FetchResult.err)]).versions "AWS::X" = some r2) ∧
     lookupA (runPass "t1"
        (⟨[], [("AWS::X", ⟨"t0", "t0", none, none⟩)], []⟩ : St Nat)
        [("AWS::X", FetchResult.err)]).removed "AWS::X" =
       lookupA (⟨[], [("AWS::X", ⟨"t0", "t0", none, none⟩)], []⟩ :
         St Nat).removed "AWS::X") :=
  ⟨⟨by decide, by decide, by decide⟩,
   transient_failure_skip "t1" _ _ "AWS::X" ⟨"t0", "t0", none, none⟩
     (by decide) (by decide) (by decide)⟩

/-! ### Claim C3 -/

/-- Counterexample to C3 as stated: `AWS::X` has a VersionRecord before the
pass, its only enumeration entry fails to fetch, so it is absent from the
successfully-observed id set — yet the pass does not move it to the removed
archive and it keeps its active record, because line 45 adds every
enumerated name to `current_types` before the fetch is attempted. -/
theorem removal_law_counterexample :
    inList "AWS::X"
      (observedOk ([("AWS::X", FetchResult.err)] : List (String × FetchResult Nat)))
      = false ∧
    lookupA (⟨[], [("AWS::X", ⟨"t1", "t1", none, none⟩)], []⟩ :
      St Nat).versions "AWS::X" = some ⟨"t1", "t1", none, none⟩ ∧
    lookupA (runPass "t2" (⟨[], [("AWS::X", ⟨"t1", "t1", none, none⟩)], []⟩ : St Nat)
      [("AWS::X", FetchResult.err)]).removed "AWS::X" = none ∧
    lookupA (runPass "t2" (⟨[], [("AWS::X", ⟨"t1", "t1", none, none⟩)], []⟩ : St Nat)
      [("AWS::X", FetchResult.err)]).versions "AWS::X" =
        some ⟨"t1", "t1", none, none⟩ := by
  decide

/-- Claim C3 amended: the code keys removal on the *enumerated* id set
(`current_types`, which also contains entities whose fetch failed), not on
the successfully-observed id set.  Every EntityId that had a VersionRecord
before the pass and is absent from the enumerated `AWS::`-prefixed id set is
moved to the removed archive with `removed_date` equal to the pass timestamp
and deleted from the active ledger. -/
theorem removal_law_amended {D : Type} [DecidableEq D] (t : String) (s : St D)
    (E : List (String × FetchResult D)) (id : String) (r : VersionRecord)
    (hnd : (s.versions.map Prod.fst).Nodup)
    (hv : lookupA s.versions id = some r)
    (hct : inList id (currentTypes E) = false) :
    lookupA (runPass t s E).versions id = none ∧
    lookupA (runPass t s E).removed id = some (toRemoved r t) := by
  have hnotmem : id ∉ currentTypes E := by
    intro hm
    rw [inList_iff.mpr hm] at hct
    cases hct
  have hloopv : lookupA (E.foldl (processEntry t) s).versions id = some r := by
    rw [foldl_notin_ct t s hnotmem]
    exact hv
  have hloopnd := foldl_nodup t E s hnd
  constructor
  · unfold runPass
    rw [reconcile_versions]
    simp [hct]
  · unfold runPass
    exact reconcile_removed_moved t _ hloopnd hloopv hct

/-- Witness for the amended C3: `AWS::Gone` has a record and is absent from
an empty enumeration; the pass archives it with `removed_date = "t2"` and
drops it from the ledger. -/
theorem removal_law_amended_witness :
    (((⟨[], [("AWS::Gone", ⟨"t1", "t1", none, none⟩)], []⟩ :
        St Nat).versions.map Prod.fst).Nodup ∧
     lookupA (⟨[], [("AWS::Gone", ⟨"t1", "t1", none, none⟩)], []⟩ :
       St Nat).versions "AWS::Gone" = some ⟨"t1", "t1", none, none⟩ ∧
     inList "AWS::Gone" (currentTypes ([] : List (String × FetchResult Nat))) = false) ∧
    (lookupA (runPass "t2" (⟨[], [("AWS::Gone", ⟨"t1", "t1", none, none⟩)], []⟩ : St Nat)
        []).versions "AWS::Gone" = none ∧
     lookupA (runPass "t2" (⟨[], [("AWS::Gone", ⟨"t1", "t1", none, none⟩)], []⟩ : St Nat)
        []).removed "AWS::Gone" = some (toRemoved ⟨"t1", "t1", none, none⟩ "t2")) :=
  ⟨⟨by decide, by decide, by decide⟩,
   removal_law_amended "t2" _ _ "AWS::Gone" ⟨"t1", "t1", none, none⟩
     (by decide) (by decide) (by decide)⟩

/-! ### Claim C7 -/

/-- Counterexample to C7 as stated: `AWS::X` is removed in pass 2 (archived
with `first_seen = "t1"`, `removed_date = "t2"`), reappears in pass 3, and is
removed again in pass 4.  Because `removed_schemas` is a dict keyed by type
name (line 99), the second removal overwrites the earlier archive entry
instead of retaining it unmodified. -/
theorem removed_archive_counterexample :
    lookupA (runPass "t2"
        (runPass "t1" (⟨[], [], []⟩ : St Nat) [("AWS::X", FetchResult.ok 1 none none)])
        []).removed "AWS::X" = some ⟨"t1", "t1", none, none, "t2"⟩ ∧
    lookupA (runPass "t4"
        (runPass "t3"
          (runPass "t2"
            (runPass "t1" (⟨[], [], []⟩ : St Nat) [("AWS::X", FetchResult.ok 1 none none)])
            [])
          [("AWS::X", FetchResult.ok 1 none none)])
        []).removed "AWS::X" ≠ some ⟨"t1", "t1", none, none, "t2"⟩ := by
  decide

/-- Claim C7 amended: the removed archive never deletes an entry, and an
entry can only be modified by a *second removal* of the same EntityId (which
overwrites it with the new removal record); any pass in which the EntityId
is enumerated leaves the entry untouched, and a reappearing EntityId gets a
fresh VersionRecord with `first_seen` equal to the reappearance pass
timestamp. -/
theorem removed_archive_amended {D : Type} [DecidableEq D] (t : String) (s : St D)
    (E : List (String × FetchResult D)) (id : String) (rr : RemovedRecord)
    (hrr : lookupA s.removed id = some rr) :
    (lookupA (runPass t s E).removed id).isSome ∧
    (inList id (currentTypes E) = true →
      lookupA (runPass t s E).removed id = some rr) ∧
    (∀ (d : D) (tc ds : Option String), lookupA s.versions id = none →
      (id, FetchResult.ok d tc ds) ∈ E → startsWithAws id = true →
      ∃ r, lookupA (runPass t s E).versions id = some r ∧
        r.first_seen = t ∧ r.last_updated = t) := by
  refine ⟨?_, ?_, ?_⟩
  · unfold runPass
    apply reconcile_removed_isSome
    rw [foldl_removed, hrr]
    rfl
  · intro hct
    unfold runPass
    rw [reconcile_removed_in_ct _ _ _ _ hct, foldl_removed, hrr]
  · intro d tc ds h0 hmem ha
    exact newIdFresh t h0 hmem ha

/-- Witness for the amended C7: `AWS::X` sits in the removed archive and
reappears successfully; the pass keeps the archive entry untouched and
creates a fresh record with `first_seen = "t3"`. -/
theorem removed_archive_amended_witness :
    (lookupA (⟨[], [], [("AWS::X", ⟨"t1", "t1", none, none, "t2"⟩)]⟩ :
       St Nat).removed "AWS::X" = some ⟨"t1", "t1", none, none, "t2"⟩) ∧
    ((lookupA (runPass "t3"
        (⟨[], [], [("AWS::X", ⟨"t1", "t1", none, none, "t2"⟩)]⟩ : St Nat)
        [("AWS::X", FetchResult.ok 5 none none)]).removed "AWS::X").isSome ∧
     (inList "AWS::X"
        (currentTypes ([("AWS::X", FetchResult.ok 5 none none)] :
          List (String × FetchResult Nat))) = true →
      lookupA (runPass "t3"
        (⟨[], [], [("AWS::X", ⟨"t1", "t1", none, none, "t2"⟩)]⟩ : St Nat)
        [("AWS::X", FetchResult.ok 5 none none)]).removed "AWS::X" =
          some ⟨"t1", "t1", none, none, "t2"⟩) ∧
     (∀ (d : Nat) (tc ds : Option String),
       lookupA (⟨[], [], [("AWS::X", ⟨"t1", "t1", none, none, "t2"⟩)]⟩ :
         St Nat).versions "AWS::X" = none →
       ("AWS::X", FetchResult.ok d tc ds) ∈
         ([("AWS::X", FetchResult.ok 5 none none)] : List (String × FetchResult Nat)) →
       startsWithAws "AWS::X" = true →
       ∃ r, lookupA (runPass "t3"
          (⟨[], [], [("AWS::X", ⟨"t1", "t1", none, none, "t2"⟩)]⟩ : St Nat)
          [("AWS::X", FetchResult.ok 5 none none)]).versions "AWS::X" = some r ∧
         r.first_seen = "t3" ∧ r.last_updated = "t3")) :=
  ⟨by decide,
   removed_archive_amended "t3" _ _ "AWS::X" ⟨"t1", "t1", none, none, "t2"⟩ (by decide)⟩

/-! ### Claim C8 -/

theorem decodeId_cons {c : Char} (h : c ≠ '-') :
    ∀ l : List Char, decodeId (c :: l) = c :: decodeId l
  | [] => rfl
  | x :: xs => by
    show (if c = '-' ∧ x = '-' then ':' :: ':' :: decodeId xs
          else c :: decodeId (x :: xs)) = c :: decodeId (x :: xs)
    rw [if_neg]
    intro hc
    exact h hc.1

theorem decode_encode : ∀ {cs : List Char}, '-' ∉ cs → decodeId (encodeId cs) = cs := by
  intro cs
  induction cs using encodeId.induct with
  | case1 => intro _; rfl
  | case2 c =>
    intro h
    show decodeId [c] = [c]
    rfl
  | case3 c c2 cs hcond ih =>
    intro h
    obtain ⟨hc, hc2⟩ := hcond
    subst hc
    subst hc2
    show decodeId (if (':' : Char) = ':' ∧ (':' : Char) = ':'
        then '-' :: '-' :: encodeId cs else ':' :: encodeId (':' :: cs)) = _
    rw [if_pos ⟨rfl, rfl⟩]
    show (if ('-' : Char) = '-' ∧ ('-' : Char) = '-'
        then ':' :: ':' :: decodeId (encodeId cs)
        else '-' :: decodeId ('-' :: encodeId cs)) = _
    rw [if_pos ⟨rfl, rfl⟩, ih (fun hm => h (List.mem_cons_of_mem _ (List.mem_cons_of_mem _ hm)))]
  | case4 c c2 cs hcond ih =>
    intro h
    have hc : c ≠ '-' := fun hc => h (hc ▸ List.mem_cons_self _ _)
    show decodeId (if c = ':' ∧ c2 = ':' then '-' :: '-' :: encodeId cs
        else c :: encodeId (c2 :: cs)) = _
    rw [if_neg hcond, decodeId_cons hc,
      ih (fun hm => h (List.mem_cons_of_mem _ hm))]

theorem encodeId_length : ∀ cs : List Char, (encodeId cs).length = cs.length := by
  intro cs
  induction cs using encodeId.induct with
  | case1 => rfl
  | case2 c => rfl
  | case3 c c2 cs hcond ih =>
    show (if c = ':' ∧ c2 = ':' then '-' :: '-' :: encodeId cs
        else c :: encodeId (c2 :: cs)).length = _
    rw [if_pos hcond]
    simp [ih]
  | case4 c c2 cs hcond ih =>
    show (if c = ':' ∧ c2 = ':' then '-' :: '-' :: encodeId cs
        else c :: encodeId (c2 :: cs)).length = _
    rw [if_neg hcond]
    simp [ih]

theorem lastDotIdx_append_json (x : List Char) :
    lastDotIdx (x ++ ".json".data) = some x.length := by
  induction x with
  | nil => decide
  | cons c x ih =>
    show lastDotIdx (c :: (x ++ ".json".data)) = some (x.length + 1)
    unfold lastDotIdx
    rw [ih]

theorem stemOf_append_json {x : List Char} (hx : x ≠ []) :
    stemOf (x ++ ".json".data) = x := by
  unfold stemOf
  rw [lastDotIdx_append_json]
  have hlen : (x ++ ".json".data).length = x.length + 5 := by
    simp [List.length_append]
  dsimp only
  rw [if_pos]
  · exact List.take_left x (".json".data)
  · constructor
    · exact List.length_pos.mpr hx
    · rw [hlen]
      omega

/-- Counterexample to C8 as stated: the id-to-filename map is not reversible
on all EntityId strings — `"A--B"` round-trips to `"A::B"`, and the two
distinct ids `"A--B"` and `"A::B"` collide on the same filename. -/
theorem id_path_roundtrip_counterexample :
    recoverId (fileNameOf "A--B") ≠ "A--B" ∧
    fileNameOf "A--B" = fileNameOf "A::B" := by
  decide

/-- Claim C8 amended: the filename mapping (replace `'::'` by `'--'`, append
`.json`) composed with its inverse (strip the `.json` stem, replace `'--'`
by `'::'`) recovers the exact original id for every nonempty EntityId that
contains no `'-'` character (which covers all real `AWS::…` type names); it
is not injective on arbitrary strings, as the counterexample shows. -/
theorem id_path_roundtrip_amended (id : String) (h1 : '-' ∉ id.data)
    (h2 : id.data ≠ []) : recoverId (fileNameOf id) = id := by
  obtain ⟨cs⟩ := id
  show String.mk (decodeId (stemOf (encodeId cs ++ ".json".data))) = String.mk cs
  congr 1
  have henc : encodeId cs ≠ [] := by
    intro hnil
    apply h2
    have := encodeId_length cs
    rw [hnil] at this
    exact List.length_eq_zero.mp this.symm
  rw [stemOf_append_json henc]
  exact decode_encode h1

/-- Witness for the amended C8 at a real resource-type name. -/
theorem id_path_roundtrip_amended_witness :
    ('-' ∉ "AWS::S3::Bucket".data ∧ "AWS::S3::Bucket".data ≠ []) ∧
    recoverId (fileNameOf "AWS::S3::Bucket") = "AWS::S3::Bucket" :=
  ⟨⟨by decide, by decide⟩,
   id_path_roundtrip_amended "AWS::S3::Bucket" (by decide) (by decide)⟩

/-! ### Claim C9 -/

/-- Claim C9: `commit_changes` appends a history-log entry if and only if at
least one blob's content changed during the pass (the staged working tree
differs from the committed tree): an empty pass appends nothing, and a pass
with at least one change appends exactly one summarizing entry. -/
theorem history_log_gating {D : Type} [DecidableEq D] (t : String) (repo : Repo D) :
    ((commit_changes t repo).1.log = repo.log ++ [schemaUpdateMsg t] ∧
       (commit_changes t repo).2 = true ↔ repo.workTree ≠ repo.headTree) ∧
    ((commit_changes t repo).1.log = repo.log ∧
       (commit_changes t repo).2 = false ↔ repo.workTree = repo.headTree) := by
  by_cases h : repo.workTree = repo.headTree
  · simp [commit_changes, h]
  · simp [commit_changes, h]

/-- Evaluation of C9 at concrete repositories: one changed blob produces
exactly one log entry; an unchanged tree produces none. -/
theorem history_log_gating_witness :
    ((commit_changes "t1" (⟨[("a.json", 1)], [], []⟩ : Repo Nat)).1.log =
        ([] : List String) ++ [schemaUpdateMsg "t1"] ∧
      (commit_changes "t1" (⟨[("a.json", 1)], [], []⟩ : Repo Nat)).2 = true) ∧
    (commit_changes "t1" (⟨[("b.json", 2)], [("b.json", 2)], ["m0"]⟩ : Repo Nat)).1.log =
      ["m0"] :=
  ⟨(history_log_gating "t1" _).1.mpr (by decide),
   ((history_log_gating "t1" _).2.mpr (by decide)).1⟩

/-! ### Claim C6 -/

/-- Claim C6 is wrong about the code: persist is not atomic.  Lines 106-108
write `version_metadata.json` by truncating it in place (`open(version_file,
'w')`) and then streaming the `json.dump` serialization into it, so a
failure mid-write leaves a readable partial prefix of the new serialization
while the prior durable contents are already destroyed.  At the concrete
failing input below — a prior ledger serialization for `AWS::X` and a write
fault after one character — the surviving file differs from the prior state,
differs from the new serialization, and is a nonempty readable partial
file. -/
theorem persist_not_atomic :
    persistVersions
        (serializeVersions [("AWS::X", ⟨"t0", "t1", none, none⟩)]) (some 1) ≠
      serializeVersions [("AWS::X", ⟨"t0", "t0", none, none⟩)] ∧
    persistVersions
        (serializeVersions [("AWS::X", ⟨"t0", "t1", none, none⟩)]) (some 1) ≠
      serializeVersions [("AWS::X", ⟨"t0", "t1", none, none⟩)] ∧
    persistVersions
        (serializeVersions [("AWS::X", ⟨"t0", "t1", none, none⟩)]) (some 1) ≠ [] := by
  decide

/-! ### Claim C5 -/

theorem loop_facts {D : Type} [DecidableEq D] (t : String)
    (E : List (String × FetchResult D)) :
    ∀ (s : St D) {id : String} {d : D} {tc ds : Option String},
      ((E.map fun e => fileNameOf e.1).Nodup) →
      (id, FetchResult.ok d tc ds) ∈ E → startsWithAws id = true →
      lookupA (E.foldl (processEntry t) s).store (fileNameOf id) = some d ∧
      ∃ r, lookupA (E.foldl (processEntry t) s).versions id = some r ∧
        ovw tc r.time_created = r.time_created ∧
        ovw ds r.deprecation_status = r.deprecation_status := by
  induction E with
  | nil =>
    intro s id d tc ds _ hmem
    cases hmem
  | cons e E ih =>
    intro s id d tc ds hnd hmem ha
    simp only [List.map_cons, List.nodup_cons] at hnd
    obtain ⟨hndhead, hndtail⟩ := hnd
    simp only [List.foldl_cons]
    rcases List.mem_cons.mp hmem with heq | hmem2
    · subst heq
      have hfn : ∀ p ∈ E, fileNameOf p.1 ≠ fileNameOf id := by
        intro p hp hfe
        exact hndhead (by rw [← hfe]; exact List.mem_map_of_mem _ hp)
      have hid : ∀ p ∈ E, p.1 ≠ id := by
        intro p hp hpe
        apply hndhead
        have : fileNameOf p.1 = fileNameOf id := by rw [hpe]
        rw [← this]
        exact List.mem_map_of_mem _ hp
      constructor
      · rw [foldl_store_ne t _ hfn, processEntry_ok _ _ _ _ _ _ ha]
        exact lookupA_setA_same _ _ _
      · rw [foldl_versions_ne t _ hid, processEntry_ok_lookup_any t s d tc ds ha]
        refine ⟨_, rfl, ?_, ?_⟩
        · simp [applyMeta, ovw_idem]
        · simp [applyMeta, ovw_idem]
    · exact ih _ hndtail hmem2 ha

theorem processEntry_stable {D : Type} [DecidableEq D] (t : String) (s : St D)
    {id : String} {d : D} {tc ds : Option String} {r : VersionRecord}
    (hs : lookupA s.store (fileNameOf id) = some d)
    (hv : lookupA s.versions id = some r)
    (h1 : ovw tc r.time_created = r.time_created)
    (h2 : ovw ds r.deprecation_status = r.deprecation_status) :
    processEntry t s (id, FetchResult.ok d tc ds) = s := by
  by_cases ha : startsWithAws id = true
  · rw [processEntry_ok _ _ _ _ _ _ ha]
    have hchanged : (match lookupA s.store (fileNameOf id) with
        | some old => decide (old ≠ d)
        | none => true) = false := by
      rw [hs]
      simp
    rw [hchanged, updateVersions_stable t hv h1 h2, lookupA_setA_self hs]
  · exact processEntry_notAws _ _ _ _ (Bool.eq_false_iff.mpr ha)

theorem foldl_stable {D : Type} [DecidableEq D] (t : String)
    (E : List (String × FetchResult D)) (s : St D)
    (h : ∀ e ∈ E, processEntry t s e = s) :
    E.foldl (processEntry t) s = s := by
  induction E with
  | nil => rfl
  | cons e E ih =>
    simp only [List.foldl_cons]
    rw [h e (List.mem_cons_self _ _)]
    exact ih (fun e2 he2 => h e2 (List.mem_cons_of_mem _ he2))

/-- Counterexample to C5 as stated: over the unchanged two-entity corpus
`AWS::A::B` and `AWS::A--B` — two distinct EntityIds whose filenames collide
under the `'::' → '--'` encoding — the two entities overwrite each other's
schema file every pass, so the second pass sees both as changed and bumps
`last_updated`: the VersionRecords are not identical after the second
pass. -/
theorem idempotence_counterexample :
    (runPass "t2"
        (runPass "t1" (⟨[], [], []⟩ : St Nat)
          [("AWS::A::B", FetchResult.ok 1 none none),
           ("AWS::A--B", FetchResult.ok 2 none none)])
        [("AWS::A::B", FetchResult.ok 1 none none),
         ("AWS::A--B", FetchResult.ok 2 none none)]).versions ≠
      (runPass "t1" (⟨[], [], []⟩ : St Nat)
        [("AWS::A::B", FetchResult.ok 1 none none),
         ("AWS::A--B", FetchResult.ok 2 none none)]).versions := by
  decide

/-- Claim C5 amended: when the enumerated entities' encoded filenames are
pairwise distinct (true of real corpora, where type names contain no `'-'`),
a second pass over the unchanged corpus is the identity: every VersionRecord
(indeed the whole state) is unchanged, and the deterministic key-sorted
serialization of the ledger is byte-for-byte identical. -/
theorem idempotence_amended {D : Type} [DecidableEq D] (t1 t2 : String) (s0 : St D)
    (E : List (String × FetchResult D))
    (hnd : (E.map fun e => fileNameOf e.1).Nodup) :
    runPass t2 (runPass t1 s0 E) E = runPass t1 s0 E ∧
    serializeVersions (runPass t2 (runPass t1 s0 E) E).versions =
      serializeVersions (runPass t1 s0 E).versions := by
  have hmain : runPass t2 (runPass t1 s0 E) E = runPass t1 s0 E := by
    have hfacts : ∀ {id : String} {d : D} {tc ds : Option String},
        (id, FetchResult.ok d tc ds) ∈ E → startsWithAws id = true →
        lookupA (runPass t1 s0 E).store (fileNameOf id) = some d ∧
        ∃ r, lookupA (runPass t1 s0 E).versions id = some r ∧
          ovw tc r.time_created = r.time_created ∧
          ovw ds r.deprecation_status = r.deprecation_status := by
      intro id d tc ds hmem ha
      obtain ⟨hst, r, hv, h1, h2⟩ := loop_facts t1 E s0 hnd hmem ha
      constructor
      · unfold runPass
        rw [reconcile_store]
        exact hst
      · refine ⟨r, ?_, h1, h2⟩
        unfold runPass
        rw [reconcile_versions, if_pos (inList_ct_of_entry hmem ha)]
        exact hv
    have hstepid : ∀ e ∈ E, processEntry t2 (runPass t1 s0 E) e = runPass t1 s0 E := by
      intro e he
      obtain ⟨name, res⟩ := e
      cases res with
      | err => exact processEntry_err _ _ _
      | ok d tc ds =>
        by_cases ha : startsWithAws name = true
        · obtain ⟨hst, r, hv, h1, h2⟩ := hfacts he ha
          exact processEntry_stable t2 _ hst hv h1 h2
        · exact processEntry_notAws _ _ _ _ (Bool.eq_false_iff.mpr ha)
    have hloop : E.foldl (processEntry t2) (runPass t1 s0 E) = runPass t1 s0 E :=
      foldl_stable t2 E _ hstepid
    show reconcile t2 (currentTypes E) (E.foldl (processEntry t2) (runPass t1 s0 E)) =
      runPass t1 s0 E
    rw [hloop]
    apply reconcile_stable
    intro p hp
    have hp2 : p ∈ (reconcile t1 (currentTypes E) (E.foldl (processEntry t1) s0)).versions := hp
    exact reconcile_keys_in_ct t1 (currentTypes E) _ p hp2
  exact ⟨hmain, by rw [hmain]⟩

/-- Witness for the amended C5: a two-entity corpus (one successful fetch,
one failed) with distinct filenames; the second pass changes nothing. -/
theorem idempotence_amended_witness :
    (([("AWS::A", FetchResult.ok 1 none none), ("AWS::B", FetchResult.err)] :
        List (String × FetchResult Nat)).map (fun e => fileNameOf e.1)).Nodup ∧
    (runPass "t2"
        (runPass "t1" (⟨[], [], []⟩ : St Nat)
          [("AWS::A", FetchResult.ok 1 none none), ("AWS::B", FetchResult.err)])
        [("AWS::A", FetchResult.ok 1 none none), ("AWS::B", FetchResult.err)] =
      runPass "t1" (⟨[], [], []⟩ : St Nat)
        [("AWS::A", FetchResult.ok 1 none none), ("AWS::B", FetchResult.err)] ∧
     serializeVersions (runPass "t2"
        (runPass "t1" (⟨[], [], []⟩ : St Nat)
          [("AWS::A", FetchResult.ok 1 none none), ("AWS::B", FetchResult.err)])
        [("AWS::A", FetchResult.ok 1 none none), ("AWS::B", FetchResult.err)]).versions =
      serializeVersions (runPass "t1" (⟨[], [], []⟩ : St Nat)
        [("AWS::A", FetchResult.ok 1 none none), ("AWS::B", FetchResult.err)]).versions) :=
  ⟨by decide,
   idempotence_amended "t1" "t2" _ _ (by decide)⟩

end CfnSchemaVersioning
